import Mathlib

/-!
# Verification of `resolve_bufr_sequence`

Shallow embedding of the core of the `resolve_bufr_sequence` repository:

* `src/src/resolve_bufr_sequence/resolve_bufr_sequence.py` — the package
  module: `is_sequence`, the recursive `read_sequence` (nested dicts, no
  cycle guard), `print_content`, and the top-level error handling.
* `src/src/resolve_bufr_sequence/io_utils.py` — `BUFRReader.read_sequence`
  (same scan, but with the `_sequence_stack` cycle guard and the
  `"<circular reference>"` sentinel), `BUFRReader._is_sequence`.
* `src/resolve_bufr_sequence.py` — the legacy script: flat
  `read_sequence`, `print_content` classification (requires length 6 for
  expansion) and `resolve_sequence` with the process-global `already_read`
  list.

Python strings are modelled as `List Char` (`Str`).  Files are modelled as
the list of their lines; lines are modelled without the trailing newline,
which is immaterial because the tokenizer splits on runs of non-word
characters and the newline only extends the trailing separator run.
Recursion of the Python readers (which is recursion through the definition
file's cross references, not structural recursion) is modelled with an
explicit fuel parameter: `none` means the fuel was exhausted, i.e. the
Python recursion is deeper than the given bound.
-/

/-- Python `str` as a list of characters. -/
abbrev Str := List Char

/-- Coerce a Lean string literal to the `Str` model. -/
def str (s : String) : Str := s.data

/-- A character matched by Python's regex `\w` (ASCII input): letters,
digits, or underscore. -/
def isWordChar (c : Char) : Bool := c.isAlphanum || c = '_'

/-- `re.split(r"\W+", s)`: the list of (possibly empty) segments between
maximal runs of non-word characters.  A run of consecutive non-word
characters counts as one separator; a separator at the very start or end
of the string produces an empty segment there, exactly as in Python. -/
def wsplitAux : Str → List Str
  | [] => [[]]
  | c :: rest =>
    match wsplitAux rest with
    | [] => [[]]
    | seg :: segs =>
      if isWordChar c then (c :: seg) :: segs
      else
        match rest with
        | [] => [] :: seg :: segs
        | d :: _ => if isWordChar d then [] :: seg :: segs else seg :: segs

/-- `re.split(r"\W+", line)` as used by every `read_sequence` variant. -/
def wsplit (line : Str) : List Str := wsplitAux line

/-- `endchar in line` / `end_char in line` with `endchar = "]"`. -/
def hasEnd (line : Str) : Bool := line.contains ']'

/-- `re.match(rf"^\"{sequence_number}\" =", line)`: the identifier is a
numeric string, so the regex is a literal match of `"IDENTIFIER" =`
anchored at the start of the line. -/
def headerMatch (id : Str) (line : Str) : Bool :=
  (('"' :: id) ++ str "\" =").isPrefixOf line

/-- `s.startswith(c)` for a single character `c` (false on the empty
string, as in Python). -/
def startsWithChar (c : Char) (s : Str) : Bool :=
  match s with
  | [] => false
  | d :: _ => d = c

/-- `is_sequence` from the package module `resolve_bufr_sequence.py`:
`return True if seq.startswith("3") else False`. -/
def is_sequence (seq : Str) : Bool := startsWithChar '3' seq

/-- `BUFRReader._is_sequence` from `io_utils.py`:
`return bool(seq and seq.startswith("3"))`. -/
def BUFRReader._is_sequence (seq : Str) : Bool :=
  !seq.isEmpty && startsWithChar '3' seq

/-- A value of the nested expansion: either a leaf token (Python `str`)
or a one-key dict `{identifier: [members...]}` (Python `dict`). -/
inductive Elem : Type where
  | leaf : Str → Elem
  | seq : Str → List Elem → Elem

mutual

/-- Decidable equality of expansion values (hand-rolled: `Elem` is a
nested inductive). -/
def Elem.decEq : (a b : Elem) → Decidable (a = b)
  | .leaf s, .leaf t =>
    if h : s = t then .isTrue (h ▸ rfl) else .isFalse (fun hh => h (by injection hh))
  | .leaf _, .seq _ _ => .isFalse (fun h => Elem.noConfusion h)
  | .seq _ _, .leaf _ => .isFalse (fun h => Elem.noConfusion h)
  | .seq i ms, .seq j ns =>
    if h : i = j then
      match Elem.decEqList ms ns with
      | .isTrue h2 => .isTrue (by rw [h, h2])
      | .isFalse h2 => .isFalse (fun hh => h2 (by injection hh))
    else .isFalse (fun hh => h (by injection hh))

/-- Decidable equality of member lists. -/
def Elem.decEqList : (as bs : List Elem) → Decidable (as = bs)
  | [], [] => .isTrue rfl
  | [], _ :: _ => .isFalse (fun h => List.noConfusion h)
  | _ :: _, [] => .isFalse (fun h => List.noConfusion h)
  | a :: as, b :: bs =>
    match Elem.decEq a b with
    | .isTrue h1 =>
      match Elem.decEqList as bs with
      | .isTrue h2 => .isTrue (by rw [h1, h2])
      | .isFalse h2 => .isFalse (fun hh => h2 (by injection hh))
    | .isFalse h1 => .isFalse (fun hh => h1 (by injection hh))

end

instance : DecidableEq Elem := Elem.decEq

/-- Python truthiness of a member as used by
`list(filter(None, elements))`: an empty string is falsy; every dict the
reader builds has exactly one key and is therefore truthy. -/
def pyTruthy : Elem → Bool
  | .leaf s => !s.isEmpty
  | .seq _ _ => true

/-! ## The package module reader
(`src/src/resolve_bufr_sequence/resolve_bufr_sequence.py`, `read_sequence`)

The loop body is split into the continuation-line token loop
(`contTokens`, the `if goto_next_line:` branch), the header-line token
loop (`headTokens`, the `if re.match(...)` branch, which skips tokens
equal to the looked-up identifier), and the line loop (`procLines`).
`rec` stands for the recursive call `read_sequence` at one smaller fuel. -/

/-- Continuation-line branch: every token is appended; class-3 tokens are
expanded recursively. -/
def contTokens (rec : Str → Option Elem) : List Str → List Elem → Option (List Elem)
  | [], acc => some acc
  | n :: ns, acc =>
    if is_sequence n then
      match rec n with
      | some tr => contTokens rec ns (acc ++ [tr])
      | none => none
    else contTokens rec ns (acc ++ [Elem.leaf n])

/-- Header-line branch: tokens equal to `sequence_number` are skipped
(`if n != sequence_number:`); the rest is as in `contTokens`. -/
def headTokens (rec : Str → Option Elem) (id : Str) : List Str → List Elem → Option (List Elem)
  | [], acc => some acc
  | n :: ns, acc =>
    if n = id then headTokens rec id ns acc
    else if is_sequence n then
      match rec n with
      | some tr => headTokens rec id ns (acc ++ [tr])
      | none => none
    else headTokens rec id ns (acc ++ [Elem.leaf n])

/-- The `for line in fp:` loop with its `goto_next_line` flag.  Per line,
in source order: the continuation branch, then `if endchar in line:
goto_next_line = False`, then the header-match branch (which finally sets
`goto_next_line = False if endchar in line else True`). -/
def procLines (rec : Str → Option Elem) (id : Str) :
    List Str → Bool → List Elem → Option (List Elem)
  | [], _, acc => some acc
  | line :: rest, goto, acc =>
    let step1 : Option (List Elem) :=
      if goto then contTokens rec (wsplit line) acc else some acc
    match step1 with
    | none => none
    | some acc1 =>
      let goto1 := if hasEnd line then false else goto
      if headerMatch id line then
        match headTokens rec id (wsplit line) acc1 with
        | none => none
        | some acc2 => procLines rec id rest (!hasEnd line) acc2
      else procLines rec id rest goto1 acc1

/-- `read_sequence` from the package module, with the file already opened
into its list of lines.  `elements = list(filter(None, elements))` is the
final `pyTruthy` filter; the result is the dict
`{sequence_number: elements}`.  Fuel bounds the recursion depth through
class-3 cross references; `none` means the bound was hit. -/
def read_sequence : Nat → List Str → Str → Option Elem
  | 0, _, _ => none
  | t + 1, file, id =>
    match procLines (read_sequence t file) id file false [] with
    | some elems => some (.seq id (elems.filter pyTruthy))
    | none => none

/-! ## The guarded reader
(`src/src/resolve_bufr_sequence/io_utils.py`, `BUFRReader.read_sequence`)

The instance attribute `self._sequence_stack` is a mutable set shared by
nested calls; it is modelled by threading the stack through every call
and returning the updated stack together with the result, mirroring
`add` at entry (`id :: stack`, taken only when `id` is absent) and
`remove` before returning (`List.erase`).  The token loops differ from
the module reader in that empty tokens are never appended
(`elif n:` / `if n != sequence_number and n:`); consequently the
`[e for e in elements if e]` at the end of the Python function filters
nothing — and in fact the source drops that filtered list by rebinding
the local name, returning the dict built around the original list, so
the returned members are exactly the appended `elements`. -/

/-- Continuation branch of `BUFRReader.read_sequence`:
`if _is_sequence(n): ... elif n: elements.append(n)`. -/
def contTokensG (rec : List Str → Str → Option (Elem × List Str)) :
    List Str → List Elem → List Str → Option (List Elem × List Str)
  | [], acc, st => some (acc, st)
  | n :: ns, acc, st =>
    if BUFRReader._is_sequence n then
      match rec st n with
      | some (tr, st') => contTokensG rec ns (acc ++ [tr]) st'
      | none => none
    else if n.isEmpty then contTokensG rec ns acc st
    else contTokensG rec ns (acc ++ [Elem.leaf n]) st

/-- Header branch of `BUFRReader.read_sequence`:
`if n != sequence_number and n:` then expand or append. -/
def headTokensG (rec : List Str → Str → Option (Elem × List Str)) (id : Str) :
    List Str → List Elem → List Str → Option (List Elem × List Str)
  | [], acc, st => some (acc, st)
  | n :: ns, acc, st =>
    if n = id || n.isEmpty then headTokensG rec id ns acc st
    else if BUFRReader._is_sequence n then
      match rec st n with
      | some (tr, st') => headTokensG rec id ns (acc ++ [tr]) st'
      | none => none
    else headTokensG rec id ns (acc ++ [Elem.leaf n]) st

/-- The `for line in lines:` loop of `BUFRReader.read_sequence`, same
flag discipline as `procLines`, with the sequence stack threaded. -/
def procLinesG (rec : List Str → Str → Option (Elem × List Str)) (id : Str) :
    List Str → Bool → List Elem → List Str → Option (List Elem × List Str)
  | [], _, acc, st => some (acc, st)
  | line :: rest, goto, acc, st =>
    let step1 : Option (List Elem × List Str) :=
      if goto then contTokensG rec (wsplit line) acc st else some (acc, st)
    match step1 with
    | none => none
    | some (acc1, st1) =>
      let goto1 := if hasEnd line then false else goto
      if headerMatch id line then
        match headTokensG rec id (wsplit line) acc1 st1 with
        | none => none
        | some (acc2, st2) => procLinesG rec id rest (!hasEnd line) acc2 st2
      else procLinesG rec id rest goto1 acc1 st1

/-- `BUFRReader.read_sequence`: the cycle guard returns the sentinel dict
`{sequence_number: ["<circular reference>"]}` without touching the
stack; otherwise the identifier is pushed, the file is scanned, and the
identifier is removed again before returning. -/
def BUFRReader.read_sequence : Nat → List Str → List Str → Str → Option (Elem × List Str)
  | 0, _, _, _ => none
  | t + 1, file, stack, id =>
    if stack.contains id then
      some (.seq id [.leaf (str "<circular reference>")], stack)
    else
      match procLinesG (BUFRReader.read_sequence t file) id file false [] (id :: stack) with
      | some (elems, st') => some (.seq id elems, st'.erase id)
      | none => none

/-! ## Error propagation when the definition file cannot be opened

The module reader wraps the whole scan in
`try: ... except FileNotFoundError: print(...); sys.exit(1)`; the
guarded reader lets `FileCache.read_file_lines` raise
`FileNotFoundError(f"Required file not found: ...")`, removes the
identifier from the stack and re-raises.  An unopenable file is modelled
as `none` in place of the line list. -/

/-- Outcome of one call of the module-level `read_sequence` including
its `try/except` wrapper. -/
inductive ModuleResult : Type where
  | tree : Elem → ModuleResult
  | exit1 : ModuleResult
  | fuelOut : ModuleResult
  deriving DecidableEq

/-- The module `read_sequence` with the `Path(SEQUENCE_FILE).open`
step: a missing file triggers the `except FileNotFoundError` branch,
which prints a message and calls `sys.exit(1)`. -/
def read_sequence_run (t : Nat) (file? : Option (List Str)) (id : Str) : ModuleResult :=
  match file? with
  | none => .exit1
  | some lines =>
    match read_sequence t lines id with
    | some e => .tree e
    | none => .fuelOut

/-- Outcome of one call of `BUFRReader.read_sequence` including the
`except FileNotFoundError ... raise e` wrapper. -/
inductive GuardedResult : Type where
  | tree : Elem → List Str → GuardedResult
  | raiseNotFound : GuardedResult
  | fuelOut : GuardedResult
  deriving DecidableEq

/-- `BUFRReader.read_sequence` with the file-open step: the cycle guard
fires before any file access; otherwise a missing file raises
`FileNotFoundError`, which is re-raised to the caller (the stack is
restored by the `except` branch's add/remove pairing). -/
def BUFRReader.read_sequence_run (t : Nat) (file? : Option (List Str))
    (stack : List Str) (id : Str) : GuardedResult :=
  if stack.contains id then
    .tree (.seq id [.leaf (str "<circular reference>")]) stack
  else
    match file? with
    | none => .raiseNotFound
    | some lines =>
      match BUFRReader.read_sequence t lines stack id with
      | some (e, st) => .tree e st
      | none => .fuelOut

/-! ## Token classification for printing

`print_content` in the package module (and `Formatter.print_content` in
`formatter.py`, which has the identical chain) dispatches on the first
character only; `print_content` in the legacy script
`src/resolve_bufr_sequence.py` additionally recurses into
`resolve_sequence` for tokens starting with `3` of length exactly 6. -/

/-- What `print_content` does with a token. -/
inductive ContentAction : Type where
  | expand : ContentAction
  | red : ContentAction
  | purple : ContentAction
  | descr : ContentAction
  | nomatch : ContentAction
  deriving DecidableEq

/-- `print_content` of the package module
(`resolve_bufr_sequence.py` lines 120-132): operators (`2`) are printed
red, repetition markers (`1`) purple, elements (`0`, length > 1) are
resolved via the element table, everything else falls through to
`No match for ...`. -/
def print_content (templ : Str) : ContentAction :=
  if startsWithChar '2' templ then .red
  else if startsWithChar '1' templ then .purple
  else if startsWithChar '0' templ && decide (templ.length > 1) then .descr
  else .nomatch

/-- `print_content` of the legacy script (`src/resolve_bufr_sequence.py`
lines 74-87): a token starting with `3` of length exactly 6 triggers
`resolve_sequence` (expansion); then the same chain as the package
version. -/
def Script.print_content (templ : Str) : ContentAction :=
  if startsWithChar '3' templ && decide (templ.length = 6) then .expand
  else if startsWithChar '2' templ then .red
  else if startsWithChar '1' templ then .purple
  else if startsWithChar '0' templ && decide (templ.length > 1) then .descr
  else .nomatch

/-! ## The legacy script
(`src/resolve_bufr_sequence.py`): `read_sequence` returns the flat token
list of the matching block (including the header identifier itself and
with empty tokens removed only by the final `filter(None, ...)`), and
`resolve_sequence` prints it, skipping any sequence already present in
the process-global `already_read` list. -/

/-- `read_sequence` of the legacy script: the same line loop as the
package reader, but non-recursive and with no token skipped before the
final `filter(None, elements)`. -/
def Script.read_sequence (file : List Str) (id : Str) : List Str :=
  let step := fun (st : Bool × List Str) (line : Str) =>
    let goto := st.1
    let elems := if goto then st.2 ++ wsplit line else st.2
    let goto1 := if hasEnd line then false else goto
    if headerMatch id line then (!hasEnd line, elems ++ wsplit line)
    else (goto1, elems)
  ((file.foldl step (false, [])).2).filter (fun tok => !tok.isEmpty)

/-- One unit of terminal output of the legacy script. -/
inductive Ev : Type where
  | header : Str → Ev
  | red : Str → Ev
  | purple : Str → Ev
  | descr : Str → Ev
  | nomatch : Str → Ev
  | nothingFound : Str → Ev
  deriving DecidableEq

/-- `resolve_sequence` of the legacy script (default flags, i.e. without
`--minimum`), returning the printed events, the updated process-global
`already_read` list, and whether `sys.exit` was called.  A sequence
already in `already_read` is skipped entirely (`pass`); otherwise the
header is printed, the sequence is appended to `already_read`, and each
token of the flat template is dispatched through `Script.print_content`,
where an `expand` action recurses.  An empty template prints
`Nothing found ...` and exits.  Fuel bounds the recursion depth. -/
def Script.resolve_sequence : Nat → List Str → List Str → Str →
    Option (List Ev × List Str × Bool)
  | 0, _, _, _ => none
  | t + 1, file, already, sq =>
    if already.contains sq then some ([], already, false)
    else
      let already1 := already ++ [sq]
      let template := Script.read_sequence file sq
      if template.isEmpty then some ([Ev.header sq, Ev.nothingFound sq], already1, true)
      else
        template.foldl
          (fun acc tok =>
            match acc with
            | none => none
            | some (evs, a, ex) =>
              if ex then some (evs, a, ex)
              else
                match Script.print_content tok with
                | .expand =>
                  match Script.resolve_sequence t file a tok with
                  | none => none
                  | some (evs2, a2, ex2) => some (evs ++ evs2, a2, ex2)
                | .red => some (evs ++ [Ev.red tok], a, ex)
                | .purple => some (evs ++ [Ev.purple tok], a, ex)
                | .descr => some (evs ++ [Ev.descr tok], a, ex)
                | .nomatch => some (evs ++ [Ev.nomatch tok], a, ex))
          (some ([Ev.header sq], already1, false))

/-! ## Block constructors for the definition-file format

`"NNNNNN" = [ tok1, tok2, ... ]`, possibly split across lines. -/

/-- `tok1, tok2, ..., tokN` — the comma-separated token list. -/
def tokensJoin : List Str → Str
  | [] => []
  | [m] => m
  | m :: ms => m ++ str ", " ++ tokensJoin ms

/-- A complete single-line block `"X" = [ tok1, ..., tokN ]`. -/
def mkLine (id : Str) (ms : List Str) : Str :=
  ('"' :: id) ++ str "\" = [ " ++ tokensJoin ms ++ str " ]"

/-- The header line of a multi-line block: `"X" = [ tok1, ..., tokK,`
(no closing bracket). -/
def mkHeadNoEnd (id : Str) (ms : List Str) : Str :=
  ('"' :: id) ++ str "\" = [ " ++ tokensJoin ms ++ [',']

/-- The terminating continuation line `tokK+1, ..., tokN ]`. -/
def mkContEnd (ms : List Str) : Str := tokensJoin ms ++ str " ]"

mutual

/-- Invariant of C9: no leaf of the tree is a class-3 token (every
class-3 member occurs as a nested dict). -/
def elemOk : Elem → Bool
  | .leaf s => !is_sequence s
  | .seq _ ms => listOk ms

/-- `elemOk` on every member of a list. -/
def listOk : List Elem → Bool
  | [] => true
  | m :: ms => elemOk m && listOk ms

end

/-! ## Lemmas about the tokenizer -/

theorem wsplitAux_ne_nil (s : Str) : wsplitAux s ≠ [] := by
  match s with
  | [] => simp [wsplitAux]
  | c :: rest =>
    simp only [wsplitAux]
    rcases h : wsplitAux rest with _ | ⟨seg, segs⟩
    · simp
    · by_cases hw : isWordChar c
      · simp [hw]
      · rcases rest with _ | ⟨d, rest'⟩
        · simp [hw]
        · by_cases hd : isWordChar d <;> simp [hw, hd]

/-- Prepending a run of word characters extends the first segment. -/
theorem wsplitAux_word_append : ∀ (m s : Str) (seg : Str) (segs : List Str),
    (∀ c ∈ m, isWordChar c) → wsplitAux s = seg :: segs →
    wsplitAux (m ++ s) = (m ++ seg) :: segs
  | [], s, seg, segs, _, hs => by simpa using hs
  | c :: m', s, seg, segs, hm, hs => by
    have hw : isWordChar c := hm c (by simp)
    have ih' := wsplitAux_word_append m' s seg segs (fun x hx => hm x (by simp [hx])) hs
    show wsplitAux (c :: (m' ++ s)) = (c :: (m' ++ seg)) :: segs
    simp only [wsplitAux]
    rw [ih']
    simp [hw]

/-- A separator before a character `d` merges with a following separator
and opens a fresh empty segment before a word character. -/
theorem wsplitAux_sep_cons (c d : Char) (s' : Str) (hc : isWordChar c = false) :
    wsplitAux (c :: d :: s') =
      if isWordChar d then [] :: wsplitAux (d :: s') else wsplitAux (d :: s') := by
  rcases h : wsplitAux (d :: s') with _ | ⟨seg, segs⟩
  · exact absurd h (wsplitAux_ne_nil _)
  · have e : wsplitAux (c :: d :: s') =
        (match wsplitAux (d :: s') with
          | [] => [[]]
          | seg :: segs =>
            if isWordChar c then (c :: seg) :: segs
            else if isWordChar d then [] :: seg :: segs else seg :: segs) := rfl
    rw [e, h]
    simp [hc]

/-- A nonempty run of separators followed by a word character splits off
exactly one empty segment. -/
theorem wsplitAux_seps_append : ∀ (pre : Str) (d : Char) (s' : Str),
    (∀ c ∈ pre, isWordChar c = false) → pre ≠ [] → isWordChar d = true →
    wsplitAux (pre ++ d :: s') = [] :: wsplitAux (d :: s')
  | [], _, _, _, hne, _ => absurd rfl hne
  | [c], d, s', hpre, _, hd => by
    show wsplitAux (c :: d :: s') = _
    rw [wsplitAux_sep_cons c d s' (hpre c (by simp))]
    simp [hd]
  | c :: e :: pre'', d, s', hpre, _, hd => by
    have he : isWordChar e = false := hpre e (by simp)
    have ih := wsplitAux_seps_append (e :: pre'') d s'
      (fun x hx => hpre x (by simp [hx])) (by simp) hd
    show wsplitAux (c :: (e :: pre'' ++ d :: s')) = _
    rw [show (e :: pre'' ++ d :: s' : Str) = e :: (pre'' ++ d :: s') from rfl,
      wsplitAux_sep_cons c e _ (hpre c (by simp)), he]
    simpa using ih

/-- The comma-joined token list starts with a word character. -/
theorem tokensJoin_head (ms : List Str) (s : Str) (hms : ms ≠ [])
    (h1 : ∀ m ∈ ms, m ≠ []) (h2 : ∀ m ∈ ms, ∀ c ∈ m, isWordChar c) :
    ∃ d Z, isWordChar d = true ∧ tokensJoin ms ++ s = d :: Z := by
  rcases ms with _ | ⟨m, ms'⟩
  · exact absurd rfl hms
  · rcases hm : m with _ | ⟨d, m'⟩
    · exact absurd hm (h1 m (by simp))
    · have hd : isWordChar d := h2 m (by simp) d (by simp [hm])
      rcases ms' with _ | ⟨m1, ms''⟩
      · exact ⟨d, m' ++ s, hd, by simp [tokensJoin, hm]⟩
      · exact ⟨d, m' ++ str ", " ++ tokensJoin (m1 :: ms'') ++ s, hd, by
          simp [tokensJoin, hm]⟩

/-- Splitting the comma-joined token list followed by a suffix whose own
split starts with an empty segment recovers the tokens. -/
theorem wsplitAux_tokensJoin_append : ∀ (ms : List Str) (s : Str) (segs : List Str),
    (∀ m ∈ ms, m ≠ []) → (∀ m ∈ ms, ∀ c ∈ m, isWordChar c) →
    wsplitAux s = [] :: segs → ms ≠ [] →
    wsplitAux (tokensJoin ms ++ s) = ms ++ segs
  | [], _, _, _, _, _, hms => absurd rfl hms
  | [m], s, segs, h1, h2, hs, _ => by
    show wsplitAux (m ++ s) = [m] ++ segs
    rw [wsplitAux_word_append m s [] segs (h2 m (by simp)) hs]
    simp
  | m :: m1 :: ms'', s, segs, h1, h2, hs, _ => by
    have hih : wsplitAux (tokensJoin (m1 :: ms'') ++ s) = (m1 :: ms'') ++ segs :=
      wsplitAux_tokensJoin_append (m1 :: ms'') s segs
        (fun x hx => h1 x (by simp [hx])) (fun x hx => h2 x (by simp [hx])) hs (by simp)
    obtain ⟨d, Z, hd, hZ⟩ := tokensJoin_head (m1 :: ms'') s (by simp)
      (fun x hx => h1 x (by simp [hx])) (fun x hx => h2 x (by simp [hx]))
    have hmid : wsplitAux (str ", " ++ (tokensJoin (m1 :: ms'') ++ s)) =
        [] :: ((m1 :: ms'') ++ segs) := by
      rw [hZ, wsplitAux_seps_append (str ", ") d Z (by decide) (by decide) hd, ← hZ, hih]
    show wsplitAux (m ++ str ", " ++ tokensJoin (m1 :: ms'') ++ s) = _
    simp only [List.append_assoc]
    rw [wsplitAux_word_append m _ [] ((m1 :: ms'') ++ segs) (h2 m (by simp)) hmid]
    simp

/-! ## Splitting and matching the constructed block lines -/

theorem wsplit_mkLine (X : Str) (ms : List Str) (hX : X ≠ [])
    (hXw : ∀ c ∈ X, isWordChar c) (hms : ms ≠ [])
    (h1 : ∀ m ∈ ms, m ≠ []) (h2 : ∀ m ∈ ms, ∀ c ∈ m, isWordChar c) :
    wsplit (mkLine X ms) = [] :: X :: (ms ++ [[]]) := by
  have hbody : wsplitAux (tokensJoin ms ++ str " ]") = ms ++ [[]] :=
    wsplitAux_tokensJoin_append ms (str " ]") [[]] h1 h2 (by decide) hms
  obtain ⟨d, Z, hd, hZ⟩ := tokensJoin_head ms (str " ]") hms h1 h2
  have hseps : wsplitAux (str "\" = [ " ++ (tokensJoin ms ++ str " ]")) =
      [] :: (ms ++ [[]]) := by
    rw [hZ, wsplitAux_seps_append (str "\" = [ ") d Z (by decide) (by decide) hd, ← hZ, hbody]
  have hX2 : wsplitAux (X ++ (str "\" = [ " ++ (tokensJoin ms ++ str " ]"))) =
      (X ++ []) :: (ms ++ [[]]) := wsplitAux_word_append X _ [] _ hXw hseps
  rcases hXc : X with _ | ⟨x0, X'⟩
  · exact absurd hXc hX
  · have hx0 : isWordChar x0 := hXw x0 (by simp [hXc])
    rw [hXc] at hX2
    show wsplitAux (mkLine (x0 :: X') ms) = _
    rw [show mkLine (x0 :: X') ms =
        '"' :: x0 :: (X' ++ (str "\" = [ " ++ (tokensJoin ms ++ str " ]"))) from by
      simp [mkLine, List.append_assoc]]
    rw [wsplitAux_sep_cons '"' x0 _ (by decide), hx0]
    simp only [if_true]
    rw [show (x0 :: (X' ++ (str "\" = [ " ++ (tokensJoin ms ++ str " ]")))) =
        ((x0 :: X') ++ (str "\" = [ " ++ (tokensJoin ms ++ str " ]"))) from rfl, hX2]
    simp

theorem wsplit_mkHeadNoEnd (X : Str) (ms : List Str) (hX : X ≠ [])
    (hXw : ∀ c ∈ X, isWordChar c) (hms : ms ≠ [])
    (h1 : ∀ m ∈ ms, m ≠ []) (h2 : ∀ m ∈ ms, ∀ c ∈ m, isWordChar c) :
    wsplit (mkHeadNoEnd X ms) = [] :: X :: (ms ++ [[]]) := by
  have hbody : wsplitAux (tokensJoin ms ++ [',']) = ms ++ [[]] :=
    wsplitAux_tokensJoin_append ms [','] [[]] h1 h2 (by decide) hms
  obtain ⟨d, Z, hd, hZ⟩ := tokensJoin_head ms [','] hms h1 h2
  have hseps : wsplitAux (str "\" = [ " ++ (tokensJoin ms ++ [','])) =
      [] :: (ms ++ [[]]) := by
    rw [hZ, wsplitAux_seps_append (str "\" = [ ") d Z (by decide) (by decide) hd, ← hZ, hbody]
  have hX2 : wsplitAux (X ++ (str "\" = [ " ++ (tokensJoin ms ++ [',']))) =
      (X ++ []) :: (ms ++ [[]]) := wsplitAux_word_append X _ [] _ hXw hseps
  rcases hXc : X with _ | ⟨x0, X'⟩
  · exact absurd hXc hX
  · have hx0 : isWordChar x0 := hXw x0 (by simp [hXc])
    rw [hXc] at hX2
    show wsplitAux (mkHeadNoEnd (x0 :: X') ms) = _
    rw [show mkHeadNoEnd (x0 :: X') ms =
        '"' :: x0 :: (X' ++ (str "\" = [ " ++ (tokensJoin ms ++ [',']))) from by
      simp [mkHeadNoEnd, List.append_assoc]]
    rw [wsplitAux_sep_cons '"' x0 _ (by decide), hx0]
    simp only [if_true]
    rw [show (x0 :: (X' ++ (str "\" = [ " ++ (tokensJoin ms ++ [','])))) =
        ((x0 :: X') ++ (str "\" = [ " ++ (tokensJoin ms ++ [',']))) from rfl, hX2]
    simp

theorem wsplit_mkContEnd (ms : List Str) (hms : ms ≠ [])
    (h1 : ∀ m ∈ ms, m ≠ []) (h2 : ∀ m ∈ ms, ∀ c ∈ m, isWordChar c) :
    wsplit (mkContEnd ms) = ms ++ [[]] :=
  wsplitAux_tokensJoin_append ms (str " ]") [[]] h1 h2 (by decide) hms

/-- The constructed header line always matches its own identifier. -/
theorem headerMatch_mkLine_self (X : Str) (ms : List Str) :
    headerMatch X (mkLine X ms) = true := by
  rw [show mkLine X ms =
      (('"' :: X) ++ str "\" =") ++ (str " [ " ++ (tokensJoin ms ++ str " ]")) from by
    simp [mkLine, List.append_assoc]; rfl]
  simp [headerMatch, List.isPrefixOf_iff_prefix]

theorem headerMatch_mkHeadNoEnd_self (X : Str) (ms : List Str) :
    headerMatch X (mkHeadNoEnd X ms) = true := by
  rw [show mkHeadNoEnd X ms =
      (('"' :: X) ++ str "\" =") ++ (str " [ " ++ (tokensJoin ms ++ [','])) from by
    simp [mkHeadNoEnd, List.append_assoc]; rfl]
  simp [headerMatch, List.isPrefixOf_iff_prefix]

/-- A line that starts with a word character never matches a header
pattern (which starts with a double quote). -/
theorem headerMatch_false_of_word_head (X : Str) (d : Char) (Z : Str)
    (hd : isWordChar d = true) : headerMatch X (d :: Z) = false := by
  have hne : ('"' : Char) ≠ d := by
    intro e
    rw [← e] at hd
    exact absurd hd (by decide)
  show (('"' :: X) ++ str "\" =").isPrefixOf (d :: Z) = false
  rw [show ('"' :: X) ++ str "\" =" = '"' :: (X ++ str "\" =") from rfl]
  simp [List.isPrefixOf, hne]

theorem hasEnd_of_mem (line : Str) (h : ']' ∈ line) : hasEnd line = true :=
  List.elem_eq_true_of_mem h

theorem hasEnd_eq_false (line : Str) (h : ']' ∉ line) : hasEnd line = false := by
  rcases hc : hasEnd line
  · rfl
  · exact absurd (List.elem_iff.mp hc) h

theorem hasEnd_mkLine (X : Str) (ms : List Str) : hasEnd (mkLine X ms) = true :=
  hasEnd_of_mem _ (by simp [mkLine, str])

theorem hasEnd_mkContEnd (ms : List Str) : hasEnd (mkContEnd ms) = true :=
  hasEnd_of_mem _ (by simp [mkContEnd, str])

/-- No closing bracket occurs among word characters. -/
theorem not_mem_tokensJoin : ∀ (ms : List Str),
    (∀ m ∈ ms, ∀ c ∈ m, isWordChar c) → ']' ∉ tokensJoin ms
  | [], _ => by simp [tokensJoin]
  | [m], h2 => by
    intro hc
    exact absurd (h2 m (by simp) ']' (by simpa [tokensJoin] using hc)) (by decide)
  | m :: m1 :: ms'', h2 => by
    intro hc
    have ih := not_mem_tokensJoin (m1 :: ms'') (fun x hx => h2 x (by simp [hx]))
    rw [show tokensJoin (m :: m1 :: ms'') = m ++ str ", " ++ tokensJoin (m1 :: ms'')
      from rfl] at hc
    rcases (List.mem_append.mp hc) with hc1 | hc2
    · rcases (List.mem_append.mp hc1) with hc3 | hc4
      · exact absurd (h2 m (by simp) ']' hc3) (by decide)
      · simp [str] at hc4
    · exact ih hc2

theorem hasEnd_mkHeadNoEnd (X : Str) (ms : List Str)
    (hXw : ∀ c ∈ X, isWordChar c) (h2 : ∀ m ∈ ms, ∀ c ∈ m, isWordChar c) :
    hasEnd (mkHeadNoEnd X ms) = false := by
  apply hasEnd_eq_false
  intro hc
  rw [mkHeadNoEnd] at hc
  rcases List.mem_append.mp hc with hc1 | hc2
  · rcases List.mem_append.mp hc1 with hc3 | hc4
    · rcases List.mem_append.mp hc3 with hc5 | hc6
      · rcases List.mem_cons.mp hc5 with hc7 | hc8
        · exact absurd hc7 (by decide)
        · exact absurd (hXw ']' hc8) (by decide)
      · simp [str] at hc6
    · exact not_mem_tokensJoin ms h2 hc4
  · simp at hc2

/-- A looked-up identifier that is a proper prefix of the block's
identifier never matches the block's header line (the character after
the prefix in the line is a digit where the pattern requires the closing
double quote). -/
theorem headerMatch_proper_prefix_false (X Y : Str) (ms : List Str)
    (hpre : X <+: Y) (hne : X ≠ Y) (hY : ∀ c ∈ Y, c.isDigit) :
    headerMatch X (mkLine Y ms) = false := by
  obtain ⟨r, hr⟩ := hpre
  rcases r with _ | ⟨d, r'⟩
  · rw [List.append_nil] at hr
    exact absurd hr hne
  · have hd : d.isDigit := hY d (by rw [← hr]; simp)
    have hdq : ('"' : Char) ≠ d := by
      intro e
      rw [← e] at hd
      exact absurd hd (by decide)
    rcases hm : headerMatch X (mkLine Y ms)
    · rfl
    · exfalso
      have hp : (('"' :: X) ++ str "\" =") <+: mkLine Y ms :=
        List.isPrefixOf_iff_prefix.mp hm
      rw [show mkLine Y ms =
          '"' :: ((X ++ d :: r') ++ (str "\" = [ " ++ (tokensJoin ms ++ str " ]"))) from by
        rw [mkLine, ← hr]; simp [List.append_assoc]] at hp
      rw [show ('"' :: X) ++ str "\" =" = '"' :: (X ++ str "\" =") from rfl] at hp
      rw [List.cons_prefix_cons] at hp
      have hp2 := hp.2
      rw [List.append_assoc] at hp2
      simp only [List.cons_append] at hp2
      rw [List.prefix_append_right_inj] at hp2
      rw [show (str "\" =" : Str) = '"' :: str " =" from rfl] at hp2
      rw [List.cons_prefix_cons] at hp2
      exact hdq hp2.1

/-! ## Evaluating the module reader's loops on constructed blocks -/

/-- The members contributed to `elements` by one block line before the
final truthiness filter: the leading and trailing empty segments of the
split become empty-string leaves. -/
def blockElems (ms : List Str) : List Elem :=
  Elem.leaf [] :: (ms.map Elem.leaf ++ [Elem.leaf []])

theorem contTokens_leaves : ∀ (rec : Str → Option Elem) (ms : List Str) (acc : List Elem),
    (∀ m ∈ ms, is_sequence m = false) →
    contTokens rec ms acc = some (acc ++ ms.map Elem.leaf)
  | _, [], acc, _ => by simp [contTokens]
  | rec, n :: ns, acc, h => by
    have hn : is_sequence n = false := h n (by simp)
    have ih := contTokens_leaves rec ns (acc ++ [Elem.leaf n])
      (fun m hm => h m (by simp [hm]))
    simp [contTokens, hn, ih]

theorem headTokens_leaves : ∀ (rec : Str → Option Elem) (id : Str) (ms : List Str)
    (acc : List Elem), (∀ m ∈ ms, is_sequence m = false ∧ m ≠ id) →
    headTokens rec id ms acc = some (acc ++ ms.map Elem.leaf)
  | _, _, [], acc, _ => by simp [headTokens]
  | rec, id, n :: ns, acc, h => by
    have hn := h n (by simp)
    have ih := headTokens_leaves rec id ns (acc ++ [Elem.leaf n])
      (fun m hm => h m (by simp [hm]))
    simp [headTokens, hn.1, hn.2, ih]

/-- The header branch applied to the split of a constructed block line:
the leading empty token becomes a leaf, the identifier itself is
skipped, and the member tokens follow in order. -/
theorem headTokens_block (rec : Str → Option Elem) (id : Str) (ms : List Str)
    (acc : List Elem) (hid : id ≠ [])
    (h : ∀ m ∈ ms, is_sequence m = false ∧ m ≠ id) :
    headTokens rec id ([] :: id :: (ms ++ [[]])) acc = some (acc ++ blockElems ms) := by
  have h0 : ¬(([] : Str) = id) := fun e => hid e.symm
  have hrest : ∀ m ∈ ms ++ [[]], is_sequence m = false ∧ m ≠ id := by
    intro m hm
    rcases List.mem_append.mp hm with hm1 | hm2
    · exact h m hm1
    · simp at hm2
      subst hm2
      exact ⟨rfl, fun e => hid e.symm⟩
  have step := headTokens_leaves rec id (ms ++ [[]]) (acc ++ [Elem.leaf []]) hrest
  simp [headTokens, h0, step, blockElems, show is_sequence [] = false from rfl]

/-- Header branch over leaf tokens with no restriction on the tokens'
relation to the identifier: the `if n != sequence_number:` test drops
every token equal to the identifier, so the appended members are the
tokens filtered by `(· != id)`, in order. -/
theorem headTokens_leaves_filter : ∀ (rec : Str → Option Elem) (id : Str) (ms : List Str)
    (acc : List Elem), (∀ m ∈ ms, is_sequence m = false) →
    headTokens rec id ms acc =
      some (acc ++ (ms.filter (fun m => m != id)).map Elem.leaf)
  | _, _, [], acc, _ => by simp [headTokens]
  | rec, id, n :: ns, acc, h => by
    have hn : is_sequence n = false := h n (by simp)
    by_cases hne : n = id
    · subst hne
      have ih := headTokens_leaves_filter rec n ns acc (fun m hm => h m (by simp [hm]))
      simp [headTokens, ih, List.filter_cons]
    · have ih := headTokens_leaves_filter rec id ns (acc ++ [Elem.leaf n])
        (fun m hm => h m (by simp [hm]))
      have hb : (n != id) = true := bne_iff_ne.mpr hne
      simp [headTokens, hne, hn, ih, List.filter_cons, hb]

/-- `headTokens_block` without the no-self-member restriction: member
tokens equal to the looked-up identifier are dropped from the header
line along with the header occurrence itself. -/
theorem headTokens_block_filter (rec : Str → Option Elem) (id : Str) (ms : List Str)
    (acc : List Elem) (hid : id ≠ []) (h : ∀ m ∈ ms, is_sequence m = false) :
    headTokens rec id ([] :: id :: (ms ++ [[]])) acc =
      some (acc ++ blockElems (ms.filter (fun m => m != id))) := by
  have h0 : ¬(([] : Str) = id) := fun e => hid e.symm
  have hrest : ∀ m ∈ ms ++ [[]], is_sequence m = false := by
    intro m hm
    rcases List.mem_append.mp hm with hm1 | hm2
    · exact h m hm1
    · simp at hm2
      subst hm2
      rfl
  have step := headTokens_leaves_filter rec id (ms ++ [[]]) (acc ++ [Elem.leaf []]) hrest
  have hemty : (([] : Str) != id) = true := bne_iff_ne.mpr h0
  simp [headTokens, h0, step, blockElems, List.filter_append, hemty,
    show is_sequence [] = false from rfl, List.filter_cons]

/-- If no line matches the header pattern and the continuation flag is
off, the scan leaves the accumulator untouched. -/
theorem procLines_no_match : ∀ (rec : Str → Option Elem) (id : Str) (lines : List Str)
    (acc : List Elem), (∀ l ∈ lines, headerMatch id l = false) →
    procLines rec id lines false acc = some acc
  | _, _, [], _, _ => rfl
  | rec, id, line :: rest, acc, h => by
    have h0 : headerMatch id line = false := h line (by simp)
    have ih := procLines_no_match rec id rest acc (fun l hl => h l (by simp [hl]))
    simp [procLines, h0, ih]

/-- Processing one complete single-line block for the looked-up
identifier appends that block's contribution and leaves the flag off. -/
theorem procLines_cons_block (rec : Str → Option Elem) (id : Str) (ms : List Str)
    (rest : List Str) (acc : List Elem) (hid : id ≠ [])
    (hXw : ∀ c ∈ id, isWordChar c) (hms : ms ≠ [])
    (h1 : ∀ m ∈ ms, m ≠ []) (h2 : ∀ m ∈ ms, ∀ c ∈ m, isWordChar c)
    (h3 : ∀ m ∈ ms, is_sequence m = false ∧ m ≠ id) :
    procLines rec id (mkLine id ms :: rest) false acc =
      procLines rec id rest false (acc ++ blockElems ms) := by
  have hw := wsplit_mkLine id ms hid hXw hms h1 h2
  have hh := headerMatch_mkLine_self id ms
  have he := hasEnd_mkLine id ms
  have hstep := headTokens_block rec id ms acc hid h3
  simp [procLines, hh, he, hw, hstep]

theorem filter_blockElems (ms : List Str) (h1 : ∀ m ∈ ms, m ≠ []) :
    (blockElems ms).filter pyTruthy = ms.map Elem.leaf := by
  simp only [blockElems, List.filter_cons, List.filter_append]
  have hempty : pyTruthy (Elem.leaf []) = false := rfl
  rw [hempty]
  have hkeep : (ms.map Elem.leaf).filter pyTruthy = ms.map Elem.leaf := by
    apply List.filter_eq_self.mpr
    intro e he
    obtain ⟨m, hm, rfl⟩ := List.mem_map.mp he
    simpa [pyTruthy] using h1 m hm
  simp [hkeep, hempty]

theorem filter_blocks : ∀ (mss : List (List Str)),
    (∀ ms ∈ mss, ∀ m ∈ ms, m ≠ []) →
    ((mss.map blockElems).flatten).filter pyTruthy = (mss.flatten).map Elem.leaf
  | [], _ => rfl
  | ms :: mss', h => by
    have ih := filter_blocks mss' (fun x hx => h x (by simp [hx]))
    have hb := filter_blockElems ms (h ms (by simp))
    simp [List.filter_append, hb, ih]

/-! ## The class-3 leaf invariant (C9) -/

theorem listOk_append : ∀ (a b : List Elem), listOk (a ++ b) = (listOk a && listOk b)
  | [], b => by simp [listOk]
  | m :: a', b => by simp [listOk, listOk_append a' b, Bool.and_assoc]

theorem listOk_mem : ∀ (l : List Elem), listOk l = true ↔ ∀ e ∈ l, elemOk e = true
  | [] => by simp [listOk]
  | m :: l' => by
    rw [listOk]
    simp only [Bool.and_eq_true, listOk_mem l']
    constructor
    · rintro ⟨h1, h2⟩ e he
      rcases List.mem_cons.mp he with rfl | he'
      · exact h1
      · exact h2 e he'
    · intro h
      exact ⟨h m (by simp), fun e he => h e (by simp [he])⟩

theorem listOk_filter (l : List Elem) (p : Elem → Bool) (h : listOk l = true) :
    listOk (l.filter p) = true :=
  (listOk_mem _).mpr fun e he => (listOk_mem l).mp h e (List.mem_filter.mp he).1

theorem contTokens_ok : ∀ (rec : Str → Option Elem) (ms : List Str) (acc out : List Elem),
    (∀ n r, rec n = some r → elemOk r = true) → listOk acc = true →
    contTokens rec ms acc = some out → listOk out = true
  | _, [], acc, out, _, hacc, h => by
    simp [contTokens] at h
    rw [← h]
    exact hacc
  | rec, n :: ns, acc, out, hrec, hacc, h => by
    by_cases hn : is_sequence n
    · simp only [contTokens, hn, if_true] at h
      rcases hr : rec n with _ | tr
      · rw [hr] at h
        simp at h
      · rw [hr] at h
        exact contTokens_ok rec ns (acc ++ [tr]) out hrec
          (by simp [listOk_append, hacc, listOk, hrec n tr hr]) h
    · simp only [contTokens, hn, if_false, Bool.false_eq_true] at h
      exact contTokens_ok rec ns (acc ++ [Elem.leaf n]) out hrec
        (by simp [listOk_append, hacc, listOk, elemOk, hn]) h

theorem headTokens_ok : ∀ (rec : Str → Option Elem) (id : Str) (ms : List Str)
    (acc out : List Elem),
    (∀ n r, rec n = some r → elemOk r = true) → listOk acc = true →
    headTokens rec id ms acc = some out → listOk out = true
  | _, _, [], acc, out, _, hacc, h => by
    simp [headTokens] at h
    rw [← h]
    exact hacc
  | rec, id, n :: ns, acc, out, hrec, hacc, h => by
    by_cases hn0 : n = id
    · simp only [headTokens, hn0, if_pos rfl] at h
      exact headTokens_ok rec id ns acc out hrec hacc h
    · by_cases hn : is_sequence n
      · simp only [headTokens, hn0, hn, if_true, if_false, Bool.false_eq_true] at h
        rcases hr : rec n with _ | tr
        · rw [hr] at h
          simp at h
        · rw [hr] at h
          exact headTokens_ok rec id ns (acc ++ [tr]) out hrec
            (by simp [listOk_append, hacc, listOk, hrec n tr hr]) h
      · simp only [headTokens, hn0, hn, if_false, Bool.false_eq_true] at h
        exact headTokens_ok rec id ns (acc ++ [Elem.leaf n]) out hrec
          (by simp [listOk_append, hacc, listOk, elemOk, hn]) h

theorem procLines_ok : ∀ (rec : Str → Option Elem) (id : Str) (lines : List Str)
    (goto : Bool) (acc out : List Elem),
    (∀ n r, rec n = some r → elemOk r = true) → listOk acc = true →
    procLines rec id lines goto acc = some out → listOk out = true
  | _, _, [], _, acc, out, _, hacc, h => by
    simp [procLines] at h
    rw [← h]
    exact hacc
  | rec, id, line :: rest, goto, acc, out, hrec, hacc, h => by
    simp only [procLines] at h
    rcases hstep : (if goto then contTokens rec (wsplit line) acc else some acc) with _ | acc1
    · rw [hstep] at h
      simp at h
    · rw [hstep] at h
      have hacc1 : listOk acc1 = true := by
        rcases hgoto : goto
        · rw [hgoto] at hstep
          simp at hstep
          rw [← hstep]
          exact hacc
        · rw [hgoto] at hstep
          simp at hstep
          exact contTokens_ok rec _ acc acc1 hrec hacc hstep
      by_cases hh : headerMatch id line
      · simp only [hh, if_true] at h
        rcases hht : headTokens rec id (wsplit line) acc1 with _ | acc2
        · rw [hht] at h
          simp at h
        · rw [hht] at h
          exact procLines_ok rec id rest _ acc2 out hrec
            (headTokens_ok rec id (wsplit line) acc1 acc2 hrec hacc1 hht) h
      · simp only [hh, if_false, Bool.false_eq_true] at h
        exact procLines_ok rec id rest _ acc1 out hrec hacc1 h

/-- Every tree the module reader returns satisfies the class-3 leaf
invariant. -/
theorem read_sequence_ok : ∀ (t : Nat) (file : List Str) (id : Str) (e : Elem),
    read_sequence t file id = some e → elemOk e = true := by
  intro t
  induction t with
  | zero =>
    intro file id e h
    simp [read_sequence] at h
  | succ t ih =>
    intro file id e h
    simp only [read_sequence] at h
    rcases hp : procLines (read_sequence t file) id file false [] with _ | elems
    · rw [hp] at h
      simp at h
    · rw [hp] at h
      simp only [Option.some.injEq] at h
      rw [← h]
      show listOk (elems.filter pyTruthy) = true
      exact listOk_filter _ _ (procLines_ok _ id file false [] elems
        (fun n r hr => ih file n r hr) rfl hp)

/-! ## A cyclic definition file

`"300001"` and `"300002"` reference each other.  The module reader has no
cycle guard: each scan of the file for one of them recurses into the
other, so no recursion depth suffices.  The guarded reader terminates
with the sentinel. -/

/-- A definition file whose two sequence blocks form a mutual cycle. -/
def cycFile : List Str := [str "\"300001\" = [ 300002 ]", str "\"300002\" = [ 300001 ]"]

theorem headTokens_cyc1 (rec : Str → Option Elem) (acc : List Elem)
    (h : rec (str "300002") = none) :
    headTokens rec (str "300001") (wsplit (str "\"300001\" = [ 300002 ]")) acc = none := by
  rw [show headTokens rec (str "300001") (wsplit (str "\"300001\" = [ 300002 ]")) acc =
      (match rec (str "300002") with
        | some tr => headTokens rec (str "300001") [[]] (acc ++ [Elem.leaf []] ++ [tr])
        | none => none) from rfl, h]

theorem headTokens_cyc2 (rec : Str → Option Elem) (acc : List Elem)
    (h : rec (str "300001") = none) :
    headTokens rec (str "300002") (wsplit (str "\"300002\" = [ 300001 ]")) acc = none := by
  rw [show headTokens rec (str "300002") (wsplit (str "\"300002\" = [ 300001 ]")) acc =
      (match rec (str "300001") with
        | some tr => headTokens rec (str "300002") [[]] (acc ++ [Elem.leaf []] ++ [tr])
        | none => none) from rfl, h]

theorem procLines_cyc1 (rec : Str → Option Elem)
    (h : rec (str "300002") = none) :
    procLines rec (str "300001") cycFile false [] = none := by
  simp only [cycFile, procLines,
    show headerMatch (str "300001") (str "\"300001\" = [ 300002 ]") = true from by decide,
    if_true, Bool.false_eq_true, if_false,
    headTokens_cyc1 rec [] h]

theorem procLines_cyc2 (rec : Str → Option Elem)
    (h : rec (str "300001") = none) :
    procLines rec (str "300002") cycFile false [] = none := by
  simp only [cycFile, procLines,
    show headerMatch (str "300002") (str "\"300001\" = [ 300002 ]") = false from by decide,
    show headerMatch (str "300002") (str "\"300002\" = [ 300001 ]") = true from by decide,
    show hasEnd (str "\"300001\" = [ 300002 ]") = true from by decide,
    if_true, Bool.false_eq_true, if_false,
    headTokens_cyc2 rec [] h]

/-- On the cyclic file, no recursion depth lets the unguarded module
reader finish: expanding either identifier first requires expanding the
other at full depth. -/
theorem read_sequence_cyc : ∀ t : Nat,
    read_sequence t cycFile (str "300001") = none ∧
      read_sequence t cycFile (str "300002") = none := by
  intro t
  induction t with
  | zero => exact ⟨rfl, rfl⟩
  | succ t ih =>
    constructor
    · simp only [read_sequence, procLines_cyc1 (read_sequence t cycFile) ih.2]
    · simp only [read_sequence, procLines_cyc2 (read_sequence t cycFile) ih.1]

/-! ## Whole-lookup evaluations of the module reader -/

/-- A lookup against a single complete block for the same identifier
returns exactly the block's member tokens as leaves, in order. -/
theorem read_sequence_single_block (t : Nat) (X : Str) (ms : List Str)
    (hX : X ≠ []) (hXw : ∀ c ∈ X, isWordChar c) (hms : ms ≠ [])
    (h : ∀ m ∈ ms, m ≠ [] ∧ (∀ c ∈ m, isWordChar c) ∧ is_sequence m = false ∧ m ≠ X) :
    read_sequence (t + 1) [mkLine X ms] X = some (.seq X (ms.map Elem.leaf)) := by
  have h1 : ∀ m ∈ ms, m ≠ [] := fun m hm => (h m hm).1
  have h2 : ∀ m ∈ ms, ∀ c ∈ m, isWordChar c := fun m hm => (h m hm).2.1
  have h3 : ∀ m ∈ ms, is_sequence m = false ∧ m ≠ X :=
    fun m hm => ⟨(h m hm).2.2.1, (h m hm).2.2.2⟩
  have hp := procLines_cons_block (read_sequence t [mkLine X ms]) X ms [] []
    hX hXw hms h1 h2 h3
  simp only [read_sequence, hp]
  simp [procLines, filter_blockElems ms h1]

/-- As `procLines_cons_block`, but with no restriction on member tokens
equal to the identifier: those are dropped by the header branch. -/
theorem procLines_cons_block_filter (rec : Str → Option Elem) (id : Str) (ms : List Str)
    (rest : List Str) (acc : List Elem) (hid : id ≠ [])
    (hXw : ∀ c ∈ id, isWordChar c) (hms : ms ≠ [])
    (h1 : ∀ m ∈ ms, m ≠ []) (h2 : ∀ m ∈ ms, ∀ c ∈ m, isWordChar c)
    (h3 : ∀ m ∈ ms, is_sequence m = false) :
    procLines rec id (mkLine id ms :: rest) false acc =
      procLines rec id rest false
        (acc ++ blockElems (ms.filter (fun m => m != id))) := by
  have hw := wsplit_mkLine id ms hid hXw hms h1 h2
  have hh := headerMatch_mkLine_self id ms
  have he := hasEnd_mkLine id ms
  have hstep := headTokens_block_filter rec id ms acc hid h3
  simp [procLines, hh, he, hw, hstep]

/-- A lookup against a single complete block with arbitrary leaf member
tokens: the member list is the block's token list in source order with
every occurrence of the looked-up identifier dropped. -/
theorem read_sequence_single_block_filter (t : Nat) (X : Str) (ms : List Str)
    (hX : X ≠ []) (hXw : ∀ c ∈ X, isWordChar c) (hms : ms ≠ [])
    (h1 : ∀ m ∈ ms, m ≠ []) (h2 : ∀ m ∈ ms, ∀ c ∈ m, isWordChar c)
    (h3 : ∀ m ∈ ms, is_sequence m = false) :
    read_sequence (t + 1) [mkLine X ms] X =
      some (.seq X ((ms.filter (fun m => m != X)).map Elem.leaf)) := by
  have hp := procLines_cons_block_filter (read_sequence t [mkLine X ms]) X ms [] []
    hX hXw hms h1 h2 h3
  have hfil := filter_blockElems (ms.filter (fun m => m != X))
    (fun m hm => h1 m (List.mem_filter.mp hm).1)
  simp only [read_sequence, hp]
  simp [procLines, hfil]

/-- A lookup against a sequence of complete single-line blocks for the
same identifier concatenates all their member tokens in file order. -/
theorem procLines_blocks : ∀ (rec : Str → Option Elem) (id : Str)
    (mss : List (List Str)) (acc : List Elem), id ≠ [] → (∀ c ∈ id, isWordChar c) →
    (∀ ms ∈ mss, ms ≠ [] ∧ ∀ m ∈ ms,
      m ≠ [] ∧ (∀ c ∈ m, isWordChar c) ∧ is_sequence m = false ∧ m ≠ id) →
    procLines rec id (mss.map (mkLine id)) false acc =
      some (acc ++ (mss.map blockElems).flatten)
  | _, _, [], acc, _, _, _ => by simp [procLines]
  | rec, id, ms :: mss', acc, hid, hXw, h => by
    have hms := h ms (by simp)
    have step := procLines_cons_block rec id ms (mss'.map (mkLine id)) acc hid hXw hms.1
      (fun m hm => (hms.2 m hm).1) (fun m hm => (hms.2 m hm).2.1)
      (fun m hm => ⟨(hms.2 m hm).2.2.1, (hms.2 m hm).2.2.2⟩)
    have ih := procLines_blocks rec id mss' (acc ++ blockElems ms) hid hXw
      (fun x hx => h x (by simp [hx]))
    simp only [List.map_cons]
    rw [step, ih]
    simp [List.append_assoc]

theorem read_sequence_blocks (t : Nat) (X : Str) (mss : List (List Str))
    (hX : X ≠ []) (hXw : ∀ c ∈ X, isWordChar c)
    (h : ∀ ms ∈ mss, ms ≠ [] ∧ ∀ m ∈ ms,
      m ≠ [] ∧ (∀ c ∈ m, isWordChar c) ∧ is_sequence m = false ∧ m ≠ X) :
    read_sequence (t + 1) (mss.map (mkLine X)) X =
      some (.seq X ((mss.flatten).map Elem.leaf)) := by
  have hp := procLines_blocks (read_sequence t (mss.map (mkLine X))) X mss [] hX hXw h
  have hfil := filter_blocks mss (fun ms hms m hm => ((h ms hms).2 m hm).1)
  simp only [read_sequence, hp]
  simp [hfil]

/-- A lookup against a block split over a header line (no closing
bracket) and a terminating continuation line returns the header-line
tokens followed by the continuation-line tokens. -/
theorem read_sequence_two_line (t : Nat) (X : Str) (ms1 ms2 : List Str)
    (hX : X ≠ []) (hXw : ∀ c ∈ X, isWordChar c) (hms1 : ms1 ≠ []) (hms2 : ms2 ≠ [])
    (h : ∀ m ∈ ms1 ++ ms2, m ≠ [] ∧ (∀ c ∈ m, isWordChar c) ∧ is_sequence m = false ∧ m ≠ X) :
    read_sequence (t + 1) [mkHeadNoEnd X ms1, mkContEnd ms2] X =
      some (.seq X ((ms1 ++ ms2).map Elem.leaf)) := by
  have h1a : ∀ m ∈ ms1, m ≠ [] := fun m hm => (h m (List.mem_append_left _ hm)).1
  have h2a : ∀ m ∈ ms1, ∀ c ∈ m, isWordChar c :=
    fun m hm => (h m (List.mem_append_left _ hm)).2.1
  have h3a : ∀ m ∈ ms1, is_sequence m = false ∧ m ≠ X :=
    fun m hm => ⟨(h m (List.mem_append_left _ hm)).2.2.1,
      (h m (List.mem_append_left _ hm)).2.2.2⟩
  have h1b : ∀ m ∈ ms2, m ≠ [] := fun m hm => (h m (List.mem_append_right _ hm)).1
  have h2b : ∀ m ∈ ms2, ∀ c ∈ m, isWordChar c :=
    fun m hm => (h m (List.mem_append_right _ hm)).2.1
  have hw1 := wsplit_mkHeadNoEnd X ms1 hX hXw hms1 h1a h2a
  have hh1 := headerMatch_mkHeadNoEnd_self X ms1
  have he1 := hasEnd_mkHeadNoEnd X ms1 hXw h2a
  have hb1 := headTokens_block (read_sequence t [mkHeadNoEnd X ms1, mkContEnd ms2])
    X ms1 [] hX h3a
  obtain ⟨d, Z, hd, hZ⟩ := tokensJoin_head ms2 (str " ]") hms2 h1b h2b
  have hh2 : headerMatch X (mkContEnd ms2) = false := by
    rw [show mkContEnd ms2 = tokensJoin ms2 ++ str " ]" from rfl, hZ]
    exact headerMatch_false_of_word_head X d Z hd
  have he2 := hasEnd_mkContEnd ms2
  have hw2 := wsplit_mkContEnd ms2 hms2 h1b h2b
  have hc2 : ∀ m ∈ ms2 ++ [[]], is_sequence m = false := by
    intro m hm
    rcases List.mem_append.mp hm with hm1 | hm2
    · exact (h m (List.mem_append_right _ hm1)).2.2.1
    · simp at hm2
      subst hm2
      rfl
  have hct := contTokens_leaves (read_sequence t [mkHeadNoEnd X ms1, mkContEnd ms2])
    (ms2 ++ [[]]) (blockElems ms1) hc2
  have hfil1 := filter_blockElems ms1 h1a
  have hkeep2 : (ms2.map Elem.leaf).filter pyTruthy = ms2.map Elem.leaf := by
    apply List.filter_eq_self.mpr
    intro e he
    obtain ⟨m, hm, rfl⟩ := List.mem_map.mp he
    simpa [pyTruthy] using h1b m hm
  simp only [read_sequence, procLines, hh1, he1, hw1, hb1, List.nil_append,
    hh2, he2, hw2, hct, Bool.false_eq_true, if_true, if_false, Bool.not_false]
  simp [List.filter_append, hfil1, hkeep2, List.map_append,
    show pyTruthy (Elem.leaf []) = false from rfl]

/-! ## The claims -/

/-- C1: the guarded `BUFRReader.read_sequence` terminates on the cyclic
definition file and replaces each cycle edge by the fixed sentinel leaf
`"<circular reference>"` (second conjunct), but the claim fails for the
package module's `read_sequence`, which has no visit set: on the same
cyclic file no recursion depth suffices — the fuelled model returns
`none` at every depth, mirroring the unbounded Python recursion (first
conjunct). -/
theorem claimC1_cycle_termination :
    (∀ t : Nat, read_sequence t cycFile (str "300001") = none) ∧
    BUFRReader.read_sequence 3 cycFile [] (str "300001") =
      some (.seq (str "300001") [.seq (str "300002")
        [.seq (str "300001") [.leaf (str "<circular reference>")]]], []) :=
  ⟨fun t => (read_sequence_cyc t).1, by decide⟩

/-- C2: an identifier with no matching block (first conjunct, any file
none of whose lines matches the header pattern) or an empty block
(second conjunct) yields exactly `{X: []}`, without raising. -/
theorem claimC2_missing_or_empty_block :
    (∀ (t : Nat) (file : List Str) (X : Str),
      (∀ l ∈ file, headerMatch X l = false) →
      read_sequence (t + 1) file X = some (.seq X [])) ∧
    read_sequence 1 [str "\"300111\" = [ ]"] (str "300111") =
      some (.seq (str "300111") []) := by
  constructor
  · intro t file X h
    simp only [read_sequence, procLines_no_match (read_sequence t file) X file [] h]
    rfl
  · decide

theorem claimC2_witness :
    read_sequence 1 [str "\"777001\" = [ 001001 ]"] (str "300999") =
      some (.seq (str "300999") []) :=
  claimC2_missing_or_empty_block.1 0 [str "\"777001\" = [ 001001 ]"] (str "300999")
    (by decide)

/-- C3 counterexample: the claim's "the member list preserves exactly
the left-to-right token order of the source block, including duplicate
tokens" fails when a member token equals the looked-up identifier: the
header branch's `if n != sequence_number:` drops it, so the block
`"004001" = [ 004001, 012049 ]` yields `["012049"]`, not
`["004001","012049"]`. -/
theorem claimC3_counterexample :
    read_sequence 1 [str "\"004001\" = [ 004001, 012049 ]"] (str "004001") =
      some (.seq (str "004001") [.leaf (str "012049")]) ∧
    Elem.seq (str "004001") [.leaf (str "012049")] ≠
      Elem.seq (str "004001") [.leaf (str "004001"), .leaf (str "012049")] := by
  refine ⟨by decide, by decide⟩

/-- C3 amended: the member list of a single-line block is the block's
token list in source order — duplicates kept at their relative
positions — except that every header-line token equal to the looked-up
identifier is dropped (the code excludes all occurrences of the
identifier, not only the header occurrence); first conjunct: any block
of leaf tokens, second conjunct: concretely the block
`"302046" = [ 004024, 004024, 012049 ]` expands to
`{"302046": ["004024","004024","012049"]}`, the repository's own test
case. -/
theorem claimC3_member_order :
    (∀ (t : Nat) (X : Str) (ms : List Str), X ≠ [] → (∀ c ∈ X, isWordChar c) →
      ms ≠ [] →
      (∀ m ∈ ms, m ≠ [] ∧ (∀ c ∈ m, isWordChar c) ∧ is_sequence m = false) →
      read_sequence (t + 1) [mkLine X ms] X =
        some (.seq X ((ms.filter (fun m => m != X)).map Elem.leaf))) ∧
    read_sequence 1 [str "\"302046\" = [ 004024, 004024, 012049 ]"] (str "302046") =
      some (.seq (str "302046")
        [.leaf (str "004024"), .leaf (str "004024"), .leaf (str "012049")]) :=
  ⟨fun t X ms hX hXw hms h =>
    read_sequence_single_block_filter t X ms hX hXw hms
      (fun m hm => (h m hm).1) (fun m hm => (h m hm).2.1) (fun m hm => (h m hm).2.2),
    by decide⟩

theorem claimC3_witness :
    read_sequence 1 [mkLine (str "302046") [str "004024", str "004024", str "012049"]]
        (str "302046") =
      some (.seq (str "302046")
        [.leaf (str "004024"), .leaf (str "004024"), .leaf (str "012049")]) :=
  claimC3_member_order.1 0 (str "302046") [str "004024", str "004024", str "012049"]
    (by decide) (by decide) (by decide) (by decide)

/-- C4 counterexample: the claim's "expandable iff starts with `3` and
has length 6" fails — the five-character token `30001` starts with `3`
and is expanded by the package reader into a nested mapping rather than
kept as a leaf, and `is_sequence` accepts it. -/
theorem claimC4_counterexample :
    read_sequence 2 [str "\"300100\" = [ 30001 ]"] (str "300100") =
      some (.seq (str "300100") [.seq (str "30001") []]) ∧
    (str "30001").length = 5 ∧ is_sequence (str "30001") = true := by
  refine ⟨by decide, by decide, by decide⟩

/-- C4 amended: in the package, a token is treated as expandable iff it
is nonempty and starts with `3` — no length requirement
(`BUFRReader._is_sequence` agrees with the module's `is_sequence`);
only the legacy script's `print_content` additionally requires length
exactly 6 for expansion; and a class-0 token is routed to
elementary-descriptor resolution iff it starts with `0` and has length
greater than 1. -/
theorem claimC4_amended :
    (∀ s : Str, BUFRReader._is_sequence s = is_sequence s) ∧
    (∀ s : Str, is_sequence s = true ↔ ∃ r, s = '3' :: r) ∧
    (∀ s : Str, Script.print_content s = ContentAction.expand ↔
      (is_sequence s = true ∧ s.length = 6)) ∧
    (∀ s : Str, print_content s = ContentAction.descr ↔
      (startsWithChar '0' s = true ∧ s.length > 1)) := by
  refine ⟨?_, ?_, ?_, ?_⟩
  · intro s
    cases s <;> simp [BUFRReader._is_sequence, is_sequence, startsWithChar]
  · intro s
    cases s with
    | nil => simp [is_sequence, startsWithChar]
    | cons c cs => simp [is_sequence, startsWithChar, List.cons.injEq, eq_comm]
  · intro s
    rw [Script.print_content]
    by_cases hcond : (startsWithChar '3' s && decide (s.length = 6)) = true
    · simp only [hcond, if_true]
      simp only [Bool.and_eq_true, decide_eq_true_eq] at hcond
      simp [is_sequence, hcond]
    · simp only [hcond, Bool.false_eq_true, if_false]
      simp only [Bool.and_eq_true, decide_eq_true_eq, not_and] at hcond
      constructor
      · intro hh
        exact absurd hh (by split <;> [simp; split <;> [simp; split <;> simp]])
      · rintro ⟨h3, h6⟩
        exact absurd (hcond h3) (by simp [h6])
  · intro s
    cases s with
    | nil => simp [print_content, startsWithChar]
    | cons c cs =>
      by_cases hc2 : c = '2'
      · subst hc2
        simp [print_content, startsWithChar]
      · by_cases hc1 : c = '1'
        · subst hc1
          simp [print_content, startsWithChar]
        · by_cases hc0 : c = '0'
          · subst hc0
            by_cases hlen : (1 < cs.length + 1)
            · simp [print_content, startsWithChar, hlen]
            · simp [print_content, startsWithChar, hlen]
          · simp [print_content, startsWithChar, hc2, hc1, hc0]

/-- C5 counterexample: the claim's "a multi-line block yields the same
member list as the equivalent single-line block with identical tokens"
fails when a member token equals the looked-up identifier: on the header
line such a token is skipped (`n != sequence_number`), on a continuation
line it is kept, so the two-line block `"004001" = [ 001001, / 004001 ]`
yields two members where the single-line form yields one. -/
theorem claimC5_counterexample :
    read_sequence 1 [str "\"004001\" = [ 001001,", str "004001 ]"] (str "004001") =
      some (.seq (str "004001") [.leaf (str "001001"), .leaf (str "004001")]) ∧
    read_sequence 1 [str "\"004001\" = [ 001001, 004001 ]"] (str "004001") =
      some (.seq (str "004001") [.leaf (str "001001")]) ∧
    Elem.seq (str "004001") [.leaf (str "001001"), .leaf (str "004001")] ≠
      Elem.seq (str "004001") [.leaf (str "001001")] := by
  refine ⟨by decide, by decide, by decide⟩

/-- C5 amended: once a header line carries no closing bracket, the
following lines are consumed as continuation tokens up to and including
the line containing `]`, and — provided no member token equals the
looked-up identifier — the flattened member list equals that of the
equivalent single-line block. -/
theorem claimC5_amended (t : Nat) (X : Str) (ms1 ms2 : List Str)
    (hX : X ≠ []) (hXw : ∀ c ∈ X, isWordChar c) (hms1 : ms1 ≠ []) (hms2 : ms2 ≠ [])
    (h : ∀ m ∈ ms1 ++ ms2,
      m ≠ [] ∧ (∀ c ∈ m, isWordChar c) ∧ is_sequence m = false ∧ m ≠ X) :
    read_sequence (t + 1) [mkHeadNoEnd X ms1, mkContEnd ms2] X =
      read_sequence (t + 1) [mkLine X (ms1 ++ ms2)] X ∧
    read_sequence (t + 1) [mkHeadNoEnd X ms1, mkContEnd ms2] X =
      some (.seq X ((ms1 ++ ms2).map Elem.leaf)) := by
  have htwo := read_sequence_two_line t X ms1 ms2 hX hXw hms1 hms2 h
  have hone := read_sequence_single_block t X (ms1 ++ ms2) hX hXw
    (by rcases ms1 with _ | _ <;> simp_all) h
  exact ⟨htwo.trans hone.symm, htwo⟩

theorem claimC5_witness :
    read_sequence 1 [mkHeadNoEnd (str "307089") [str "004024"], mkContEnd [str "012049"]]
        (str "307089") =
      read_sequence 1 [mkLine (str "307089") [str "004024", str "012049"]] (str "307089") ∧
    read_sequence 1 [mkHeadNoEnd (str "307089") [str "004024"], mkContEnd [str "012049"]]
        (str "307089") =
      some (.seq (str "307089") [.leaf (str "004024"), .leaf (str "012049")]) :=
  claimC5_amended 0 (str "307089") [str "004024"] [str "012049"]
    (by decide) (by decide) (by decide) (by decide) (by decide)

/-- C6: the opening line must start with the quoted identifier followed
by `" =`; hence looking up an identifier that is a proper (numeric)
prefix of a block's identifier never returns that block's members — the
lookup finds nothing and yields the empty member list. -/
theorem claimC6_prefix_anchored_match (t : Nat) (X Y : Str) (ms : List Str)
    (hpre : X <+: Y) (hne : X ≠ Y) (hY : ∀ c ∈ Y, c.isDigit) :
    read_sequence (t + 1) [mkLine Y ms] X = some (.seq X []) := by
  have h0 : headerMatch X (mkLine Y ms) = false :=
    headerMatch_proper_prefix_false X Y ms hpre hne hY
  have hnm : ∀ l ∈ [mkLine Y ms], headerMatch X l = false := by
    intro l hl
    rcases List.mem_cons.mp hl with rfl | hl'
    · exact h0
    · simp at hl'
  simp only [read_sequence,
    procLines_no_match (read_sequence t [mkLine Y ms]) X [mkLine Y ms] [] hnm]
  rfl

theorem claimC6_witness :
    read_sequence 1 [mkLine (str "301022") [str "005001", str "006001"]] (str "301") =
      some (.seq (str "301") []) :=
  claimC6_prefix_anchored_match 0 (str "301") (str "301022")
    [str "005001", str "006001"] (by decide) (by decide) (by decide)

/-- C7: in the legacy script the process-global `already_read` list
persists across top-level calls: the first call of `resolve_sequence`
on `300001` prints the expansion and leaves `300001` in the list, and a
second independent top-level call on the same identifier prints nothing
at all — the persisted "already resolved" state suppresses the
re-expansion, contradicting the claim. -/
theorem claimC7_already_read_persists :
    Script.resolve_sequence 2 [str "\"300001\" = [ 201001 ]"] [] (str "300001") =
      some ([Ev.header (str "300001"), Ev.red (str "201001")], [str "300001"], false) ∧
    Script.resolve_sequence 2 [str "\"300001\" = [ 201001 ]"] [str "300001"]
        (str "300001") =
      some ([], [str "300001"], false) := by
  refine ⟨by decide, by decide⟩

/-- C8: when the definition file cannot be opened, the module reader's
`except FileNotFoundError` branch prints a message and exits with status
1, and `BUFRReader.read_sequence` re-raises the `FileNotFoundError` to
its caller; neither retries nor falls back, and no lookup produces a
tree. -/
theorem claimC8_missing_file_fatal :
    (∀ (t : Nat) (id : Str), read_sequence_run t none id = ModuleResult.exit1) ∧
    (∀ (t : Nat) (id : Str),
      BUFRReader.read_sequence_run t none [] id = GuardedResult.raiseNotFound) :=
  ⟨fun _ _ => rfl, fun _ _ => rfl⟩

/-- C9: in every tree the package's `read_sequence` returns, no leaf is
a class-3 token — every member starting with `3` is a nested mapping
(first conjunct); in particular a class-3 member with no block in the
file appears as the empty mapping, as in the concrete lookup of
`301001` whose only member `300002` has no block (second conjunct). -/
theorem claimC9_class3_members_are_mappings :
    (∀ (t : Nat) (file : List Str) (id : Str) (e : Elem),
      read_sequence t file id = some e → elemOk e = true) ∧
    read_sequence 2 [str "\"301001\" = [ 300002 ]"] (str "301001") =
      some (.seq (str "301001") [.seq (str "300002") []]) :=
  ⟨read_sequence_ok, by decide⟩

theorem claimC9_witness :
    elemOk (Elem.seq (str "301001") [Elem.seq (str "300002") []]) = true :=
  claimC9_class3_members_are_mappings.1 2 [str "\"301001\" = [ 300002 ]"]
    (str "301001") _ (by decide)

/-- C10: the reader scans the whole file and never stops after a
consumed block: a file consisting of several blocks whose headers all
carry the same identifier yields the concatenation of all their member
lists in file order. -/
theorem claimC10_duplicate_headers_concatenate (t : Nat) (X : Str)
    (mss : List (List Str)) (hX : X ≠ []) (hXw : ∀ c ∈ X, isWordChar c)
    (h : ∀ ms ∈ mss, ms ≠ [] ∧ ∀ m ∈ ms,
      m ≠ [] ∧ (∀ c ∈ m, isWordChar c) ∧ is_sequence m = false ∧ m ≠ X) :
    read_sequence (t + 1) (mss.map (mkLine X)) X =
      some (.seq X ((mss.flatten).map Elem.leaf)) :=
  read_sequence_blocks t X mss hX hXw h

theorem claimC10_witness :
    read_sequence 1
        [mkLine (str "302046") [str "004024"], mkLine (str "302046") [str "012049"]]
        (str "302046") =
      some (.seq (str "302046") [.leaf (str "004024"), .leaf (str "012049")]) :=
  claimC10_duplicate_headers_concatenate 0 (str "302046")
    [[str "004024"], [str "012049"]] (by decide) (by decide) (by decide)
